import Mathlib

/-!
Verification of the GRIT transcript-assembly pipeline
(`grit/build_transcripts.py`, `grit/find_elements.py`,
`file_types/fast_gtf_parser/gtf.py`) against its natural-language
specification.

Numeric values that the Python code manipulates as floats are modelled as
rationals; external library calls (`scipy.stats.beta.ppf`, the `%.2e`
formatter, the reads/design-matrix collaborators) are passed in as abstract
parameters so that every definition below mirrors the control and data flow
of the source line by line.
-/

namespace Grit

/-- Python `min` over a list; `min` of an empty sequence raises in Python, the
`0` default is never reached under the nonemptiness hypotheses used below. -/
def pyMin (l : List ℚ) : ℚ :=
  match l with
  | [] => 0
  | h :: t => t.foldl min h

/-- Python `max` over a list; the empty default is never reached under the
nonemptiness hypotheses used below. -/
def pyMax (l : List ℚ) : ℚ :=
  match l with
  | [] => 0
  | h :: t => t.foldl max h

/-- Python `int()` applied to a float: truncation toward zero. -/
def pyInt (q : ℚ) : ℤ :=
  if 0 ≤ q then ⌊q⌋ else ⌈q⌉

theorem foldl_min_le_init (t : List ℚ) (a : ℚ) : t.foldl min a ≤ a := by
  induction t generalizing a with
  | nil => simp
  | cons b t ih => exact le_trans (ih (min a b)) (min_le_left _ _)

theorem foldl_min_le_mem : ∀ (t : List ℚ) (a x : ℚ), x ∈ t → t.foldl min a ≤ x
  | b :: t, a, x, hx => by
    rcases List.mem_cons.mp hx with rfl | hxt
    · exact le_trans (foldl_min_le_init t (min a x)) (min_le_right _ _)
    · exact foldl_min_le_mem t (min a b) x hxt

theorem pyMin_le_of_mem {l : List ℚ} {x : ℚ} (hx : x ∈ l) : pyMin l ≤ x := by
  match l with
  | [] => cases hx
  | h :: t =>
    simp only [pyMin]
    rcases List.mem_cons.mp hx with rfl | hxt
    · exact foldl_min_le_init t x
    · exact foldl_min_le_mem t h x hxt

/-! ### `calc_fpkm` (`grit/build_transcripts.py:53`) -/

/-- A transcript as used by `calc_fpkm` and the two per-gene writers: an
identifier, genomic span, and its exon intervals. -/
structure Transcript where
  id : String
  start : ℤ
  stop : ℤ
  exons : List (ℤ × ℤ)
deriving DecidableEq

/-- `calc_fpkm(gene, fl_dist, freqs, num_reads_in_bam, num_reads_in_gene,
bound_alpha)` from `grit/build_transcripts.py:53-65`.  `betaPpf` abstracts
`scipy.stats.beta.ppf`; the fragment-length model is unused by the source
body and therefore not represented. -/
def calc_fpkm (betaPpf : ℚ → ℚ → ℚ → ℚ) (transcripts : List Transcript)
    (freqs : List ℚ) (num_reads_in_bam num_reads_in_gene : ℚ)
    (bound_alpha : ℚ) : List ℚ :=
  let corrected_num_reads_in_gene :=
    num_reads_in_bam *
      betaPpf bound_alpha (num_reads_in_gene + 1) (num_reads_in_bam + 1)
  (List.zip transcripts freqs).map (fun tf =>
    let num_reads_in_t := corrected_num_reads_in_gene * tf.2
    let t_len : ℚ := (tf.1.exons.map (fun e => (e.2 : ℚ) - e.1 + 1)).sum
    let fpk := num_reads_in_t / (t_len / 1000)
    fpk / (num_reads_in_bam / 1000000))

/-- Exonic length (in bases) of a transcript, as summed by `calc_fpkm`. -/
def transcriptLen (t : Transcript) : ℚ :=
  (t.exons.map (fun e => (e.2 : ℚ) - e.1 + 1)).sum

/-- C1: for every gene, frequency vector, total mapped-read count `N` and
in-gene read count `n`, `calc_fpkm` assigns the `i`-th transcript the value
`1e6 * f_i / (L_i / 1000)` where `f_i = beta.ppf(bound_alpha, n+1, N+1) *
freq_i` and `L_i` is the transcript's summed exon length in bases. -/
theorem calc_fpkm_eq_beta_quantile_formula
    (betaPpf : ℚ → ℚ → ℚ → ℚ) (transcripts : List Transcript)
    (freqs : List ℚ) (N n alpha : ℚ) (i : ℕ)
    (hN : N ≠ 0)
    (hi : i < (List.zip transcripts freqs).length)
    (hlen : transcriptLen ((List.zip transcripts freqs).get ⟨i, hi⟩).1 ≠ 0) :
    (calc_fpkm betaPpf transcripts freqs N n alpha).getD i 0 =
      1000000 * (betaPpf alpha (n + 1) (N + 1) *
          ((List.zip transcripts freqs).get ⟨i, hi⟩).2) /
        (transcriptLen ((List.zip transcripts freqs).get ⟨i, hi⟩).1 / 1000) := by
  unfold calc_fpkm
  rw [List.getD_eq_getElem?_getD, List.getElem?_map]
  rw [List.getElem?_eq_getElem hi]
  simp only [Option.map_some, Option.getD_some]
  set t := ((List.zip transcripts freqs).get ⟨i, hi⟩).1 with ht
  set f := ((List.zip transcripts freqs).get ⟨i, hi⟩).2 with hf
  have hL : transcriptLen t ≠ 0 := hlen
  have : (List.zip transcripts freqs)[i] = (t, f) := by
    rw [ht, hf]
    rfl
  rw [this]
  show N * betaPpf alpha (n + 1) (N + 1) * f /
      ((t.exons.map (fun e => (e.2 : ℚ) - e.1 + 1)).sum / 1000) /
      (N / 1000000) = _
  have hLdef : transcriptLen t = (t.exons.map (fun e => (e.2 : ℚ) - e.1 + 1)).sum := rfl
  rw [← hLdef]
  field_simp
  ring

/-- Witness for C1 at a concrete input: one transcript with a single
1000-base exon, frequency 1/2, 100 mapped reads, 10 in-gene reads. -/
theorem calc_fpkm_eq_beta_quantile_formula_witness :
    (calc_fpkm (fun _ _ _ => 1/2)
        [⟨"t", 0, 999, [(0, 999)]⟩] [1/2] 100 10 (1/2)).getD 0 0 =
      1000000 * ((1/2) * (1/2)) / ((1000 : ℚ) / 1000) := by
  have h := calc_fpkm_eq_beta_quantile_formula (fun _ _ _ => 1/2)
    [⟨"t", 0, 999, [(0, 999)]⟩] [1/2] 100 10 (1/2) 0
    (by norm_num) (by decide) (by norm_num [transcriptLen])
  rw [h]
  norm_num [transcriptLen]

/-! ### `write_gene_to_gtf` score (`grit/build_transcripts.py:89-94`) -/

/-- The score assigned by `write_gene_to_gtf`:
`max(1, min(1000, int((1000.*ub)/(1e-8+max(lbs)))))`. -/
def gtf_score (ub : ℚ) (lbs : List ℚ) : ℤ :=
  max 1 (min 1000 (pyInt ((1000 * ub) / (1 / 100000000 + pyMax lbs))))

/-- The enumeration loop of `write_gene_to_gtf`
(`grit/build_transcripts.py:76-94`) restricted to its score computation:
walks the transcript indices, skips unobservable ones while advancing
`n_skipped_ts`, and pairs each retained index with its score. -/
def gtfScoresGo (unobservable : List ℕ) (lbs ubs : List ℚ) :
    List ℕ → ℕ → List (ℕ × ℤ)
  | [], _ => []
  | index :: rest, n_skipped_ts =>
    if index ∈ unobservable then
      gtfScoresGo unobservable lbs ubs rest (n_skipped_ts + 1)
    else
      (index, gtf_score (ubs.getD (index - n_skipped_ts) 0) lbs) ::
        gtfScoresGo unobservable lbs ubs rest n_skipped_ts

/-- Scores assigned to the retained transcripts of a gene with
`numTranscripts` transcripts by `write_gene_to_gtf` when both bound lists
are supplied. -/
def write_gene_to_gtf_scores (numTranscripts : ℕ) (unobservable : List ℕ)
    (lbs ubs : List ℚ) : List (ℕ × ℤ) :=
  gtfScoresGo unobservable lbs ubs (List.range numTranscripts) 0

theorem filter_lt_succ_length (unobs : List ℕ) (idx : ℕ) :
    (unobs.filter (fun x => decide (x < idx + 1))).length
      = (unobs.filter (fun x => decide (x < idx))).length + unobs.count idx := by
  induction unobs with
  | nil => simp
  | cons b t ih =>
    rcases lt_trichotomy b idx with hb | hb | hb
    · have hb1 : b < idx + 1 := Nat.lt_succ_of_lt hb
      have hbne : ¬ (b = idx) := Nat.ne_of_lt hb
      simp [List.filter_cons, List.count_cons, hb, hb1, hbne, ih]
      omega
    · subst hb
      simp [List.filter_cons, List.count_cons, Nat.lt_irrefl, Nat.lt_succ_self, ih]
      omega
    · have hb1 : ¬ (b < idx + 1) := by omega
      have hb2 : ¬ (b < idx) := by omega
      have hbne : ¬ (b = idx) := by omega
      simp [List.filter_cons, List.count_cons, hb1, hb2, hbne, ih]

theorem gtfScoresGo_range'_spec (unobservable : List ℕ) (lbs ubs : List ℚ)
    (hnodup : unobservable.Nodup) :
    ∀ (n s n_skipped : ℕ),
      n_skipped = (unobservable.filter (fun x => decide (x < s))).length →
      ∀ p ∈ gtfScoresGo unobservable lbs ubs (List.range' s n) n_skipped,
        s ≤ p.1 ∧ p.1 < s + n ∧ p.1 ∉ unobservable ∧
        p.2 = gtf_score
          (ubs.getD
            (p.1 - (unobservable.filter (fun x => decide (x < p.1))).length) 0)
          lbs := by
  intro n
  induction n with
  | zero => intro s n_skipped _ p hp; simp [gtfScoresGo] at hp
  | succ n ih =>
    intro s n_skipped hns p hp
    have hrange : List.range' s (n + 1) = s :: List.range' (s + 1) n :=
      List.range'_succ s n 1
    rw [hrange] at hp
    by_cases hs : s ∈ unobservable
    · rw [gtfScoresGo, if_pos hs] at hp
      have hskip : n_skipped + 1 =
          (unobservable.filter (fun x => decide (x < s + 1))).length := by
        rw [filter_lt_succ_length, List.count_eq_one_of_mem hnodup hs, ← hns]
      have := ih (s + 1) (n_skipped + 1) hskip p hp
      exact ⟨by omega, by omega, this.2.2.1, this.2.2.2⟩
    · rw [gtfScoresGo, if_neg hs] at hp
      rcases List.mem_cons.mp hp with rfl | hp'
      · refine ⟨le_refl _, by omega, hs, ?_⟩
        simp only [← hns]
      · have hskip : n_skipped =
            (unobservable.filter (fun x => decide (x < s + 1))).length := by
          rw [filter_lt_succ_length, List.count_eq_zero_of_not_mem hs, ← hns]
          omega
        have := ih (s + 1) n_skipped hskip p hp'
        exact ⟨by omega, by omega, this.2.2.1, this.2.2.2⟩

/-- C2 counterexample: for a gene with a single retained transcript with
upper bound 1 and lower bound 1, the code assigns score 999 (the `1e-8`
epsilon in the denominator plus `int` truncation), while the claimed formula
`clamp(round(1000 * ub / max(lbs)))` gives 1000. -/
theorem write_gene_to_gtf_score_claim_counterexample :
    write_gene_to_gtf_scores 1 [] [1] [1] = [(0, 999)] ∧
    max (1 : ℤ) (min 1000 (round ((1000 : ℚ) * 1 / pyMax [1]))) = 1000 ∧
    (999 : ℤ) ≠ 1000 := by
  refine ⟨?_, ?_, by decide⟩
  · simp only [write_gene_to_gtf_scores]
    norm_num [gtfScoresGo, gtf_score, pyInt, pyMax, List.range_succ]
  · have : pyMax [1] = 1 := rfl
    rw [this]
    norm_num [round_eq]

/-- C2 (amended): for every gene written to the assembly output with both
bound lists supplied, each retained transcript's integer score equals the
truncation toward zero of `1000 * (its upper bound, re-indexed past skipped
transcripts) / (1e-8 + max over all transcripts' lower bounds)`, clamped to
the range `[1, 1000]`. -/
theorem write_gene_to_gtf_score_amended
    (numTranscripts : ℕ) (unobservable : List ℕ) (lbs ubs : List ℚ)
    (hnodup : unobservable.Nodup) :
    ∀ p ∈ write_gene_to_gtf_scores numTranscripts unobservable lbs ubs,
      p.1 < numTranscripts ∧ p.1 ∉ unobservable ∧
      p.2 = max 1 (min 1000 (pyInt ((1000 *
          ubs.getD
            (p.1 - (unobservable.filter (fun x => decide (x < p.1))).length) 0) /
        (1 / 100000000 + pyMax lbs)))) ∧
      1 ≤ p.2 ∧ p.2 ≤ 1000 := by
  intro p hp
  have h0 : (0 : ℕ) = (unobservable.filter (fun x => decide (x < 0))).length := by
    simp
  have := gtfScoresGo_range'_spec unobservable lbs ubs hnodup numTranscripts 0 0 h0 p
    (by rwa [write_gene_to_gtf_scores, List.range_eq_range'] at hp)
  refine ⟨by omega, this.2.2.1, this.2.2.2, ?_, ?_⟩
  · rw [this.2.2.2]; exact le_max_left _ _
  · rw [this.2.2.2]
    exact max_le (by norm_num) (le_trans (min_le_left _ _) (by norm_num))

/-- Witness for C2 (amended) at a concrete gene: two transcripts, the first
unobservable, bounds `lbs = [1/2]`, `ubs = [3/4]`. -/
theorem write_gene_to_gtf_score_amended_witness :
    ((1, (1000 : ℤ)).1 < 2 ∧ (1, (1000 : ℤ)).1 ∉ [0] ∧
      (1, (1000 : ℤ)).2 = max 1 (min 1000 (pyInt ((1000 *
          [(3 : ℚ)/4].getD
            ((1, (1000 : ℤ)).1 -
              (([0].filter (fun x => decide (x < (1, (1000 : ℤ)).1))).length)) 0) /
        (1 / 100000000 + pyMax [1/2])))) ∧
      1 ≤ (1, (1000 : ℤ)).2 ∧ (1, (1000 : ℤ)).2 ≤ 1000) :=
  write_gene_to_gtf_score_amended 2 [0] [1/2] [3/4] (by decide) (1, 1000)
    (by norm_num [write_gene_to_gtf_scores, gtfScoresGo, gtf_score, pyInt,
          pyMax, List.range_succ])

/-! ### `find_empty_regions` / `find_transcribed_regions`
(`grit/find_elements.py:134-161`) -/

/-- `numpy.nonzero(x == v)[0]` for a 1-d array: the sorted indices at which
`l` holds the value `v`. -/
def idxsOf (v : ℤ) (l : List ℤ) : List ℕ :=
  (List.range l.length).filter (fun i => decide (l.getD i 0 = v))

/-- `find_empty_regions(cov, thresh, min_length)` from
`grit/find_elements.py:134-142`.  The source indexes `cov[0]` and `cov[-1]`
and is never invoked on an empty array; the `[]` branch mirrors that
precondition. -/
def find_empty_regions : List ℚ → ℚ → ℤ → List (ℕ × ℕ)
  | [], _, _ => []
  | c0 :: rest, thresh, min_length =>
    let ind : List Bool := (c0 :: rest).map (fun c => decide (thresh ≤ c))
    let x : List ℤ := List.zipWith
      (fun a b => (if b then (1 : ℤ) else 0) - (if a then 1 else 0)) ind ind.tail
    let stops : List ℕ := idxsOf 1 x ++
      (if (c0 :: rest).getLast (List.cons_ne_nil c0 rest) < thresh
       then [x.length] else [])
    let starts : List ℕ :=
      (if c0 < thresh then [0] else []) ++ (idxsOf (-1) x).map (· + 1)
    (List.zip starts stops).filter
      (fun p => decide (min_length ≤ (p.2 : ℤ) - (p.1 : ℤ) + 1))

/-- The accumulation loop of `find_transcribed_regions`
(`grit/find_elements.py:154-156`): the partially built last region is the
pending start `acc.2`; each empty region closes it at `start-1` and opens a
new one at `stop+1`. -/
def ftrGo : List (ℕ × ℕ) → List (ℕ × ℕ) × ℕ → List (ℕ × ℕ) × ℕ
  | [], acc => acc
  | (start, stop) :: rest, acc =>
    ftrGo rest (acc.1 ++ [(acc.2, start - 1)], stop + 1)

/-- `find_transcribed_regions(cov, thresh)` from
`grit/find_elements.py:144-161`. -/
def find_transcribed_regions (cov : List ℚ) (thresh : ℚ) : List (ℕ × ℕ) :=
  match find_empty_regions cov thresh 0 with
  | [] => [(0, cov.length - 1)]
  | e0 :: rest =>
    let state0 : List (ℕ × ℕ) × ℕ := if e0.1 = 0 then ([], e0.2 + 1) else ([], 0)
    let remaining : List (ℕ × ℕ) := if e0.1 = 0 then rest else e0 :: rest
    let res := ftrGo remaining state0
    if res.2 = cov.length then res.1 else res.1 ++ [(res.2, cov.length - 1)]

theorem idxsOf_of_all_zero {l : List ℤ} (hl : ∀ v ∈ l, v = 0) {w : ℤ}
    (hw : w ≠ 0) : idxsOf w l = [] := by
  rw [idxsOf, List.filter_eq_nil_iff]
  intro i _
  simp only [decide_eq_true_eq]
  intro hget
  rcases lt_or_ge i l.length with hi | hi
  · have : l.getD i 0 ∈ l := by
      rw [List.getD_eq_getElem l 0 hi]
      exact List.getElem_mem hi
    exact hw ((hl _ this) ▸ hget.symm)
  · rw [List.getD_eq_default l 0 hi] at hget
    exact hw hget.symm

theorem find_empty_regions_all_below (cov : List ℚ) (thresh : ℚ)
    (hne : cov ≠ []) (hall : ∀ c ∈ cov, c < thresh) :
    find_empty_regions cov thresh 0 = [(0, cov.length - 1)] := by
  match cov, hne with
  | c0 :: rest, _ =>
    simp only [find_empty_regions]
    have hfalse : ∀ b ∈ (c0 :: rest).map (fun c => decide (thresh ≤ c)),
        b = false := by
      intro b hb
      rcases List.mem_map.mp hb with ⟨c, hc, rfl⟩
      simpa using not_le_of_lt (hall c hc)
    have hind : (c0 :: rest).map (fun c => decide (thresh ≤ c)) =
        List.replicate ((c0 :: rest).length) false :=
      (List.length_map _ _) ▸ List.eq_replicate_of_mem hfalse
    have hx : ∀ v ∈ List.zipWith
        (fun a b => (if b then (1 : ℤ) else 0) - (if a then 1 else 0))
        ((c0 :: rest).map (fun c => decide (thresh ≤ c)))
        ((c0 :: rest).map (fun c => decide (thresh ≤ c))).tail, v = 0 := by
      intro v hv
      rw [hind, List.tail_replicate, List.zipWith_replicate] at hv
      have := List.eq_of_mem_replicate hv
      simpa using this
    rw [idxsOf_of_all_zero hx (by norm_num), idxsOf_of_all_zero hx (by norm_num)]
    have hlast : (c0 :: rest).getLast (List.cons_ne_nil c0 rest) < thresh :=
      hall _ (List.getLast_mem _)
    have hc0 : c0 < thresh := hall c0 (List.mem_cons_self c0 rest)
    rw [if_pos hlast, if_pos hc0]
    have hlen : (List.zipWith
        (fun a b => (if b then (1 : ℤ) else 0) - (if a then 1 else 0))
        ((c0 :: rest).map (fun c => decide (thresh ≤ c)))
        ((c0 :: rest).map (fun c => decide (thresh ≤ c))).tail).length
        = rest.length := by
      rw [List.length_zipWith, List.length_tail, List.length_map]
      simp
    rw [hlen]
    simp
    omega

/-- The whole-input coverage is below threshold, so the single empty region
spans everything and the transcribed-region list comes out empty. -/
theorem find_transcribed_regions_all_below (cov : List ℚ) (thresh : ℚ)
    (hne : cov ≠ []) (hall : ∀ c ∈ cov, c < thresh) :
    find_transcribed_regions cov thresh = [] := by
  rw [find_transcribed_regions, find_empty_regions_all_below cov thresh hne hall]
  have hpos : 0 < cov.length := List.length_pos.mpr hne
  simp only [if_pos rfl]
  have h1 : cov.length - 1 + 1 = cov.length := Nat.succ_pred_eq_of_pos hpos
  simp [ftrGo, h1]

/-- C3 counterexample: the all-zero coverage array `[0,0,0]` (every entry
below the `1e-6` threshold) yields no transcribed region at all, not the
claimed single region `[(0, 2)]` spanning the whole input. -/
theorem find_transcribed_regions_claim_counterexample :
    find_transcribed_regions [0, 0, 0] (1 / 1000000) ≠ [(0, 2)] := by
  have h := find_transcribed_regions_all_below [0, 0, 0] (1 / 1000000)
    (by simp) (by intro c hc; fin_cases hc <;> norm_num)
  rw [h]
  simp

/-- C3 (amended): for every nonempty coverage array in which every entry is
below the expression threshold, the transcribed-region finder returns the
empty list: no transcribed region is reported (the single whole-input region
is returned only when no empty region is found, i.e. when evidence is
everywhere). -/
theorem find_transcribed_regions_amended (cov : List ℚ) (thresh : ℚ)
    (hne : cov ≠ []) (hall : ∀ c ∈ cov, c < thresh) :
    find_transcribed_regions cov thresh = [] :=
  find_transcribed_regions_all_below cov thresh hne hall

/-- Witness for C3 (amended) at the concrete all-zero array `[0,0,0]`. -/
theorem find_transcribed_regions_amended_witness :
    find_transcribed_regions [0, 0, 0] (1 / 1000000) = [] :=
  find_transcribed_regions_amended [0, 0, 0] (1 / 1000000) (by simp)
    (by intro c hc; fin_cases hc <;> norm_num)

/-! ### Scheduler loop termination (`grit/build_transcripts.py:765-782`,
`grit/find_elements.py:1224-1244`) -/

/-- Outcome of one iteration of a polling worker/scheduler loop: pop and
process a unit of work, sleep and retry, or exit the loop. -/
inductive SchedStep (α : Type) where
  | process (w : α) (rest : List α)
  | sleepRetry
  | exit

/-- `p == None or not p.is_alive()` in `spawn_and_manage_children`: a worker
slot is free when it was never filled or its process has exited. -/
def worker_slot_free : Option Bool → Bool
  | none => true
  | some alive => !alive

/-- One iteration of the `while True` loop of `spawn_and_manage_children`
(`grit/build_transcripts.py:765-782`): `input_queue.pop()` takes the last
element; on `IndexError` the loop breaks only when the queue is (still)
empty and every worker slot is free, otherwise it sleeps and retries. -/
def spawn_and_manage_children_step (input_queue : List α)
    (ps : List (Option Bool)) : SchedStep α :=
  match input_queue.getLast? with
  | some w => SchedStep.process w input_queue.dropLast
  | none =>
    if input_queue.length = 0 ∧ ps.all worker_slot_free then SchedStep.exit
    else SchedStep.sleepRetry

/-- One iteration of the `while True` loop of `find_exons_worker`
(`grit/find_elements.py:1224-1244`): with no gene popped the worker sleeps
while `n_threads_running > 0`, and returns only when the queue is empty and
no thread is running. -/
def find_exons_worker_step (genes_queue : List γ)
    (n_threads_running : ℕ) : SchedStep γ :=
  match genes_queue.getLast? with
  | some g => SchedStep.process g genes_queue.dropLast
  | none =>
    if 0 < n_threads_running then SchedStep.sleepRetry
    else if genes_queue.length = 0 ∧ n_threads_running = 0 then SchedStep.exit
    else SchedStep.sleepRetry

/-- C7: both scheduler loops exit exactly when the shared work queue is
empty and no worker is active; while work remains queued or a worker is
alive the iteration processes or sleeps instead. -/
theorem scheduler_terminates_iff_idle (α γ : Type) (q : List α)
    (ps : List (Option Bool)) (gq : List γ) (n : ℕ) :
    (spawn_and_manage_children_step q ps = SchedStep.exit ↔
      q = [] ∧ ∀ p ∈ ps, worker_slot_free p = true) ∧
    (find_exons_worker_step gq n = SchedStep.exit ↔ gq = [] ∧ n = 0) := by
  constructor
  · rcases q.eq_nil_or_concat with rfl | ⟨l, a, rfl⟩
    · simp only [spawn_and_manage_children_step, List.getLast?_nil,
        List.length_nil]
      split_ifs with hc
      · simpa [List.all_eq_true] using hc.2
      · constructor
        · intro h; cases h
        · intro h
          exact absurd ⟨trivial, List.all_eq_true.mpr h.2⟩ hc
    · simp only [spawn_and_manage_children_step, List.concat_eq_append,
        List.getLast?_concat]
      constructor
      · intro h; cases h
      · intro h
        exact absurd h.1 (by simp)
  · rcases gq.eq_nil_or_concat with rfl | ⟨l, a, rfl⟩
    · simp only [find_exons_worker_step, List.getLast?_nil, List.length_nil]
      split_ifs with h1 h2
      · constructor
        · intro h; cases h
        · intro h; omega
      · simpa using h2.2
      · constructor
        · intro h; cases h
        · intro h; exact absurd ⟨trivial, h.2⟩ h2
    · simp only [find_exons_worker_step, List.concat_eq_append,
        List.getLast?_concat]
      constructor
      · intro h; cases h
      · intro h
        exact absurd h.1 (by simp)

/-! ### `estimate_gene_expression_worker` error handling
(`grit/build_transcripts.py:158-413`) -/

/-- Python exception classes distinguished by the worker's handlers. -/
inductive PyError where
  | valueError (msg : String)
  | memoryError (msg : String)
  | systemError (msg : String)
  | other (msg : String)
deriving DecidableEq

/-- Diagnostic text carried by an exception (its traceback/str form). -/
def PyError.msg : PyError → String
  | valueError m => m
  | memoryError m => m
  | systemError m => m
  | other m => m

/-- Items appended to the shared `input_queue`: a work unit carrying only a
work type and gene identifier, or an `ERROR` record carrying the gene
identifier and diagnostic text. -/
inductive QueueItem where
  | work (work_type : String) (gene_id : ℕ)
  | error (gene_id : ℕ) (msg : String)
deriving DecidableEq

/-- Results of the external collaborators invoked by the worker's stage
bodies; each is an `Except` so that a raised Python exception is the
`.error` case.  `buildTranscripts` covers the `MAX_NUM_TRANSCRIPTS`
enumeration cap (raised from `build_transcripts`), `buildDesignMatrices`
covers `ValueError`/`MemoryError` from `build_design_matrices`,
`storeDesignMatrices` the `SystemError` on the shared-store write,
`estimateFrequencies` the MLE plus `calc_fpkm`, and
`estimateConfidenceBound` the `lb`/`ub` stage body. -/
structure WorkerEnv where
  buildTranscripts : Except PyError (List Unit)
  findCds : Except PyError Unit
  buildDesignMatrices : Except PyError Unit
  storeDesignMatrices : Except PyError Unit
  estimateFrequencies : Except PyError Unit
  estimateConfidenceBound : Except PyError Unit
  allBoundsComplete : Bool
  numTranscriptGroups : ℕ

/-- Run-level flags read by the worker. -/
structure WorkerConfig where
  onlyBuildCandidateTranscripts : Bool
  hasFasta : Bool
  estimateConfidenceBounds : Bool

/-- The body of `estimate_gene_expression_worker`'s outer `try`
(`grit/build_transcripts.py:163-405`): stage dispatch on the work type, the
stage-local `except ValueError/MemoryError/SystemError` handlers that append
an `ERROR` record and return, and the queue items appended on success.  A
`.error` result is an exception that escapes the stage body into the outer
handler. -/
def workerBody (work_type : String) (gene_id : ℕ) (env : WorkerEnv)
    (cfg : WorkerConfig) : Except PyError (List QueueItem) :=
  if work_type = "gene" then
    match env.buildTranscripts with
    | Except.error e => Except.error e
    | Except.ok transcripts =>
      match (if cfg.hasFasta then env.findCds else Except.ok ()) with
      | Except.error e => Except.error e
      | Except.ok _ =>
        Except.ok
          (if cfg.onlyBuildCandidateTranscripts then
            [QueueItem.work "FINISHED" gene_id]
          else if 0 < transcripts.length then
            [QueueItem.work "design_matrices" gene_id]
          else [])
  else if work_type = "design_matrices" then
    match env.buildDesignMatrices with
    | Except.error (PyError.valueError m) => Except.ok [QueueItem.error gene_id m]
    | Except.error (PyError.memoryError m) => Except.ok [QueueItem.error gene_id m]
    | Except.error e => Except.error e
    | Except.ok _ =>
      match env.storeDesignMatrices with
      | Except.error (PyError.systemError m) => Except.ok [QueueItem.error gene_id m]
      | Except.error e => Except.error e
      | Except.ok _ => Except.ok [QueueItem.work "mle" gene_id]
  else if work_type = "mle" then
    match env.estimateFrequencies with
    | Except.error (PyError.valueError m) => Except.ok [QueueItem.error gene_id m]
    | Except.error e => Except.error e
    | Except.ok _ =>
      Except.ok
        (if cfg.estimateConfidenceBounds then
          (List.range env.numTranscriptGroups).flatMap
            (fun _ => [QueueItem.work "lb" gene_id, QueueItem.work "ub" gene_id])
        else [QueueItem.work "FINISHED" gene_id])
  else if work_type = "lb" ∨ work_type = "ub" then
    match env.estimateConfidenceBound with
    | Except.error e => Except.error e
    | Except.ok _ =>
      Except.ok
        (if env.allBoundsComplete then [QueueItem.work "FINISHED" gene_id]
         else [])
  else Except.ok []

/-- `estimate_gene_expression_worker` with its outer
`except Exception` handler (`grit/build_transcripts.py:407-413`): any
exception escaping a stage body becomes an `ERROR` queue record with the
gene identifier and the diagnostic text, and the worker returns normally
(the result is the list of items appended to the shared queue). -/
def estimate_gene_expression_worker (work_type : String) (gene_id : ℕ)
    (env : WorkerEnv) (cfg : WorkerConfig) : List QueueItem :=
  match workerBody work_type gene_id env cfg with
  | Except.ok items => items
  | Except.error e => [QueueItem.error gene_id e.msg]

/-- An external collaborator reached by the given stage raised an
exception. -/
def stage_raises (work_type : String) (env : WorkerEnv)
    (cfg : WorkerConfig) : Prop :=
  (work_type = "gene" ∧ ((∃ e, env.buildTranscripts = Except.error e) ∨
      ((∃ ts, env.buildTranscripts = Except.ok ts) ∧ cfg.hasFasta = true ∧
        ∃ e, env.findCds = Except.error e))) ∨
  (work_type = "design_matrices" ∧
    ((∃ e, env.buildDesignMatrices = Except.error e) ∨
      (env.buildDesignMatrices = Except.ok () ∧
        ∃ e, env.storeDesignMatrices = Except.error e))) ∨
  (work_type = "mle" ∧ ∃ e, env.estimateFrequencies = Except.error e) ∨
  ((work_type = "lb" ∨ work_type = "ub") ∧
    ∃ e, env.estimateConfidenceBound = Except.error e)

/-- C6: for every work type and gene, whenever the stage body raises any
exception (from transcript enumeration past the cap, design-matrix
construction, memory exhaustion, the shared-store write, the MLE, or a
confidence-bound search), the worker appends an `ERROR` record carrying the
gene identifier and the diagnostic text to the shared queue, and returns
normally — the model is a total function, so no exception escapes and other
genes' work units are unaffected. -/
theorem worker_appends_error_on_any_exception (work_type : String)
    (gene_id : ℕ) (env : WorkerEnv) (cfg : WorkerConfig)
    (h : stage_raises work_type env cfg) :
    ∃ msg, QueueItem.error gene_id msg ∈
      estimate_gene_expression_worker work_type gene_id env cfg := by
  rcases h with ⟨rfl, h⟩ | ⟨rfl, h⟩ | ⟨rfl, h⟩ | ⟨hwt, h⟩
  · rcases h with ⟨e, he⟩ | ⟨⟨ts, hts⟩, hfasta, e, he⟩
    · refine ⟨e.msg, ?_⟩
      simp [estimate_gene_expression_worker, workerBody, he]
    · refine ⟨e.msg, ?_⟩
      simp [estimate_gene_expression_worker, workerBody, hts, hfasta, he]
  · rcases h with ⟨e, he⟩ | ⟨hok, e, he⟩
    · cases e with
      | valueError m =>
        exact ⟨m, by simp [estimate_gene_expression_worker, workerBody, he]⟩
      | memoryError m =>
        exact ⟨m, by simp [estimate_gene_expression_worker, workerBody, he]⟩
      | systemError m =>
        exact ⟨m, by simp [estimate_gene_expression_worker, workerBody, he,
          PyError.msg]⟩
      | other m =>
        exact ⟨m, by simp [estimate_gene_expression_worker, workerBody, he,
          PyError.msg]⟩
    · cases e with
      | valueError m =>
        exact ⟨m, by simp [estimate_gene_expression_worker, workerBody, hok, he,
          PyError.msg]⟩
      | memoryError m =>
        exact ⟨m, by simp [estimate_gene_expression_worker, workerBody, hok, he,
          PyError.msg]⟩
      | systemError m =>
        exact ⟨m, by simp [estimate_gene_expression_worker, workerBody, hok, he]⟩
      | other m =>
        exact ⟨m, by simp [estimate_gene_expression_worker, workerBody, hok, he,
          PyError.msg]⟩
  · rcases h with ⟨e, he⟩
    cases e with
    | valueError m =>
      exact ⟨m, by simp [estimate_gene_expression_worker, workerBody, he]⟩
    | memoryError m =>
      exact ⟨m, by simp [estimate_gene_expression_worker, workerBody, he,
        PyError.msg]⟩
    | systemError m =>
      exact ⟨m, by simp [estimate_gene_expression_worker, workerBody, he,
        PyError.msg]⟩
    | other m =>
      exact ⟨m, by simp [estimate_gene_expression_worker, workerBody, he,
        PyError.msg]⟩
  · rcases h with ⟨e, he⟩
    refine ⟨e.msg, ?_⟩
    rcases hwt with rfl | rfl
    · simp [estimate_gene_expression_worker, workerBody, he]
    · simp [estimate_gene_expression_worker, workerBody, he]

/-- Witness for C6: a `design_matrices` stage whose store write raises a
generic exception; the worker's queue output contains the `ERROR` record. -/
theorem worker_appends_error_on_any_exception_witness :
    ∃ msg, QueueItem.error 7 msg ∈
      estimate_gene_expression_worker "design_matrices" 7
        ⟨Except.ok [], Except.ok (), Except.ok (),
          Except.error (PyError.other "store failure"), Except.ok (),
          Except.ok (), false, 0⟩
        ⟨false, false, true⟩ :=
  worker_appends_error_on_any_exception "design_matrices" 7 _ _
    (Or.inr (Or.inl ⟨rfl, Or.inr ⟨rfl, PyError.other "store failure", rfl⟩⟩))

/-! ### `build_exons_from_exon_segments` (`grit/find_elements.py:1113-1141`) -/

/-- Boundary labels attached to segment ends. -/
inductive BndLabel where
  | TSS
  | TES
  | D_JN
  | R_JN
  | GENE_BNDRY
  | POLYA
  | CAGE_PEAK
deriving DecidableEq

/-- A segment bin: genomic span, boundary label sets, and the per-segment
expression estimates (lower bound, point estimate, upper bound). -/
structure SegmentBin where
  start : ℕ
  stop : ℕ
  left_labels : List BndLabel
  right_labels : List BndLabel
  fpkm_lb : ℚ
  fpkm : ℚ
  fpkm_ub : ℚ
deriving Inhabited

/-- Exon types produced by `determine_exon_type`. -/
inductive ExonType where
  | SE_GENE
  | TSS_EXON
  | TES_EXON
  | EXON
deriving DecidableEq

/-- An assembled transcript element (`TranscriptElement` bins appended by
`build_exons_from_exon_segments`). -/
structure TranscriptElement where
  start : ℕ
  stop : ℕ
  type : ExonType
  fpkm : ℚ

def EXON_START_LABELS : List BndLabel := [BndLabel.TSS, BndLabel.R_JN]

def EXON_STOP_LABELS : List BndLabel := [BndLabel.TES, BndLabel.D_JN]

/-- `determine_exon_type` (`grit/find_elements.py:1096-1111`); its asserts
only ever see labels drawn from the start/stop label sets. -/
def determine_exon_type (left_label right_label : BndLabel) : ExonType :=
  if left_label = BndLabel.TSS then
    if right_label = BndLabel.TES then ExonType.SE_GENE else ExonType.TSS_EXON
  else if right_label = BndLabel.TES then ExonType.TES_EXON
  else ExonType.EXON

/-- The inner `for j in xrange(i, len(exon_segments))` loop of
`build_exons_from_exon_segments`: breaks on a weakly expressed stop
segment, otherwise emits one element per retained stop label with fpkm the
Python `min` over the segment slice `exon_segments[i:j+1]`. -/
def buildExonsJLoop (min_exon_fpkm max_expression_ratio max_min_ee : ℚ)
    (exon_segments : List SegmentBin) (i : ℕ) (start_segment : SegmentBin)
    (start_label : BndLabel) (j : ℕ) : List TranscriptElement :=
  if hj : j < exon_segments.length then
    let stop_segment := exon_segments.get ⟨j, hj⟩
    if stop_segment.fpkm_ub < min_exon_fpkm then []
    else if stop_segment.fpkm_ub * max_expression_ratio < max_min_ee then []
    else
      ((stop_segment.right_labels.filter
          (fun l => decide (l ∈ EXON_STOP_LABELS))).map
        (fun stop_label =>
          { start := start_segment.start,
            stop := stop_segment.stop,
            type := determine_exon_type start_label stop_label,
            fpkm := pyMin (((exon_segments.map SegmentBin.fpkm).drop i).take
              (j + 1 - i)) })) ++
      buildExonsJLoop min_exon_fpkm max_expression_ratio max_min_ee
        exon_segments i start_segment start_label (j + 1)
  else []
termination_by exon_segments.length - j

/-- `build_exons_from_exon_segments` (`grit/find_elements.py:1113-1141`).
`MIN_EXON_FPKM` and `MAX_EXPRESISON_RATIO` come from the external `config`
module and are passed as parameters; the source also computes an unused
`max_fpkm`, omitted here. -/
def build_exons_from_exon_segments (min_exon_fpkm max_expression_ratio : ℚ)
    (exon_segments : List SegmentBin) : List TranscriptElement :=
  let max_min_ee := pyMax (exon_segments.map SegmentBin.fpkm_lb)
  (List.range exon_segments.length).flatMap (fun i =>
    let start_segment := exon_segments.getD i default
    (start_segment.left_labels.filter
        (fun l => decide (l ∈ EXON_START_LABELS))).flatMap
      (fun start_label =>
        buildExonsJLoop min_exon_fpkm max_expression_ratio max_min_ee
          exon_segments i start_segment start_label i))

theorem fpkm_mem_slice (segs : List SegmentBin) (i j k : ℕ) (hik : i ≤ k)
    (hkj : k ≤ j) (hj : j < segs.length) :
    (segs.getD k default).fpkm ∈
      ((segs.map SegmentBin.fpkm).drop i).take (j + 1 - i) := by
  have hk : k < segs.length := lt_of_le_of_lt hkj hj
  have hlen : k - i <
      ((((segs.map SegmentBin.fpkm).drop i).take (j + 1 - i))).length := by
    simp only [List.length_take, List.length_drop, List.length_map]
    omega
  have hget : ((((segs.map SegmentBin.fpkm).drop i).take (j + 1 - i)))[k - i] =
      (segs.getD k default).fpkm := by
    rw [List.getElem_take, List.getElem_drop, List.getElem_map,
      List.getD_eq_getElem segs default hk]
    simp only [Nat.add_sub_cancel' hik]
  rw [← hget]
  exact List.getElem_mem hlen

theorem buildExonsJLoop_spec (minE ratio maxMinEE : ℚ)
    (segs : List SegmentBin) (i : ℕ) (sseg : SegmentBin) (slabel : BndLabel) :
    ∀ (n j : ℕ), segs.length - j = n →
      ∀ e ∈ buildExonsJLoop minE ratio maxMinEE segs i sseg slabel j,
        ∃ j', j ≤ j' ∧ j' < segs.length ∧ e.start = sseg.start ∧
          e.stop = (segs.getD j' default).stop ∧
          e.fpkm = pyMin (((segs.map SegmentBin.fpkm).drop i).take (j' + 1 - i))
  | n, j, hn, e, he => by
    rw [buildExonsJLoop] at he
    by_cases hj : j < segs.length
    · rw [dif_pos hj] at he
      by_cases h1 : (segs.get ⟨j, hj⟩).fpkm_ub < minE
      · rw [if_pos h1] at he; cases he
      · rw [if_neg h1] at he
        by_cases h2 : (segs.get ⟨j, hj⟩).fpkm_ub * ratio < maxMinEE
        · rw [if_pos h2] at he; cases he
        · rw [if_neg h2] at he
          rcases List.mem_append.mp he with hmem | hrec
          · rcases List.mem_map.mp hmem with ⟨stop_label, _, rfl⟩
            refine ⟨j, le_refl j, hj, rfl, ?_, rfl⟩
            rw [List.getD_eq_getElem segs default hj]
            rfl
          · have hlt : segs.length - (j + 1) < n := by omega
            rcases buildExonsJLoop_spec minE ratio maxMinEE segs i sseg slabel
              (segs.length - (j + 1)) (j + 1) rfl e hrec with
              ⟨j', hjj', hj', hstart, hstop, hfpkm⟩
            exact ⟨j', by omega, hj', hstart, hstop, hfpkm⟩
    · rw [dif_neg hj] at he; cases he
termination_by n _ _ => n

/-- C5: every exon assembled by `build_exons_from_exon_segments` spans a run
of consecutive segments `i..j`, its recorded fpkm equals the minimum
per-segment fpkm over that run, and in particular it never exceeds any
constituent segment's fpkm. -/
theorem build_exons_fpkm_is_min_over_constituents
    (min_exon_fpkm max_expression_ratio : ℚ)
    (exon_segments : List SegmentBin) (e : TranscriptElement)
    (he : e ∈ build_exons_from_exon_segments min_exon_fpkm
      max_expression_ratio exon_segments) :
    ∃ i j, i ≤ j ∧ j < exon_segments.length ∧
      e.start = (exon_segments.getD i default).start ∧
      e.stop = (exon_segments.getD j default).stop ∧
      e.fpkm = pyMin (((exon_segments.map SegmentBin.fpkm).drop i).take
        (j + 1 - i)) ∧
      ∀ k, i ≤ k → k ≤ j →
        e.fpkm ≤ (exon_segments.getD k default).fpkm := by
  rw [build_exons_from_exon_segments] at he
  rcases List.mem_flatMap.mp he with ⟨i, hi, he₁⟩
  rcases List.mem_flatMap.mp he₁ with ⟨slabel, _, he₂⟩
  rcases buildExonsJLoop_spec min_exon_fpkm max_expression_ratio
      (pyMax (exon_segments.map SegmentBin.fpkm_lb)) exon_segments i
      (exon_segments.getD i default) slabel (exon_segments.length - i) i rfl
      e he₂ with ⟨j, hij, hj, hstart, hstop, hfpkm⟩
  refine ⟨i, j, hij, hj, hstart, hstop, hfpkm, ?_⟩
  intro k hik hkj
  rw [hfpkm]
  exact pyMin_le_of_mem (fpkm_mem_slice exon_segments i j k hik hkj hj)

/-- Witness for C5: a single TSS/TES segment assembles into one single-exon
gene whose fpkm equals that segment's fpkm. -/
theorem build_exons_fpkm_is_min_over_constituents_witness :
    ∃ i j, i ≤ j ∧
      j < [(⟨5, 9, [BndLabel.TSS], [BndLabel.TES], 1, 2, 3⟩ :
        SegmentBin)].length ∧
      (⟨5, 9, ExonType.SE_GENE, 2⟩ : TranscriptElement).start =
        ([(⟨5, 9, [BndLabel.TSS], [BndLabel.TES], 1, 2, 3⟩ :
          SegmentBin)].getD i default).start ∧
      (⟨5, 9, ExonType.SE_GENE, 2⟩ : TranscriptElement).stop =
        ([(⟨5, 9, [BndLabel.TSS], [BndLabel.TES], 1, 2, 3⟩ :
          SegmentBin)].getD j default).stop ∧
      (⟨5, 9, ExonType.SE_GENE, 2⟩ : TranscriptElement).fpkm =
        pyMin ((([(⟨5, 9, [BndLabel.TSS], [BndLabel.TES], 1, 2, 3⟩ :
          SegmentBin)].map SegmentBin.fpkm).drop i).take (j + 1 - i)) ∧
      ∀ k, i ≤ k → k ≤ j →
        (⟨5, 9, ExonType.SE_GENE, 2⟩ : TranscriptElement).fpkm ≤
          ([(⟨5, 9, [BndLabel.TSS], [BndLabel.TES], 1, 2, 3⟩ :
            SegmentBin)].getD k default).fpkm :=
  build_exons_fpkm_is_min_over_constituents 0 1
    [⟨5, 9, [BndLabel.TSS], [BndLabel.TES], 1, 2, 3⟩]
    ⟨5, 9, ExonType.SE_GENE, 2⟩
    (by
      rw [build_exons_from_exon_segments]
      have hc1 : ¬ ((3 : ℚ) < 0) := by norm_num
      have hc2 : ¬ ((3 : ℚ) * 1 <
          pyMax ([(⟨5, 9, [BndLabel.TSS], [BndLabel.TES], 1, 2, 3⟩ :
            SegmentBin)].map SegmentBin.fpkm_lb)) := by
        norm_num [pyMax]
      have hr : List.range
          ([(⟨5, 9, [BndLabel.TSS], [BndLabel.TES], 1, 2, 3⟩ :
            SegmentBin)].length) = [0] := rfl
      rw [hr]
      have hfl : ([BndLabel.TSS].filter
          (fun l => decide (l ∈ EXON_START_LABELS))) = [BndLabel.TSS] := by
        decide
      have hfr : ([BndLabel.TES].filter
          (fun l => decide (l ∈ EXON_STOP_LABELS))) = [BndLabel.TES] := by
        decide
      have hc2' : ¬ ((3 : ℚ) * 1 < 1) := by norm_num
      have hc2'' : ¬ ((3 : ℚ) < 1) := by norm_num
      simp only [List.flatMap_cons, List.flatMap_nil, List.append_nil,
        List.getD_cons_zero, hfl]
      simp [buildExonsJLoop, hc1, hc2, hc2', hc2'', hfr, pyMin, pyMax,
        determine_exon_type])


/-! ### Splice-graph construction
(`grit/find_elements.py:1041-1051`, in `find_exon_segments_and_introns_in_gene`) -/

/-- `numpy.searchsorted(a, v)` (left variant) on a sorted array: the first
index whose element is `≥ v`, i.e. the insertion point keeping order. -/
def searchsorted (a : List ℕ) (v : ℕ) : ℕ :=
  a.findIdx (fun x => decide (v ≤ x))

/-- The edge added for one junction `(start, stop)`:
`(searchsorted(bnds, start) - 1, searchsorted(bnds, stop+1) - 1 + 1)`. -/
def junction_edge (segment_bnds : List ℕ) (jn : ℕ × ℕ) : ℤ × ℤ :=
  ((searchsorted segment_bnds jn.1 : ℤ) - 1,
    (searchsorted segment_bnds (jn.2 + 1) : ℤ) - 1 + 1)

/-- The splice-graph edge set built over the `len(segment_bnds) - 1`
segments: one default edge between adjacent segments
(`zip(xrange(len-1-1), xrange(1, len-1))`) plus one edge per junction. -/
def splice_graph_edges (segment_bnds : List ℕ)
    (jns : List (ℕ × ℕ)) : List (ℤ × ℤ) :=
  ((List.range (segment_bnds.length - 1 - 1)).map
      (fun i : ℕ => ((i : ℤ), (i : ℤ) + 1)))
    ++ jns.map (junction_edge segment_bnds)

theorem searchsorted_mem (bnds : List ℕ) (hsort : bnds.Sorted (· < ·))
    (v : ℕ) (hv : v ∈ bnds) :
    searchsorted bnds v < bnds.length ∧
      bnds.getD (searchsorted bnds v) 0 = v := by
  induction bnds with
  | nil => cases hv
  | cons b rest ih =>
    by_cases hvb : v ≤ b
    · have hb : b = v := by
        rcases List.mem_cons.mp hv with rfl | hvr
        · rfl
        · exact absurd (List.rel_of_sorted_cons hsort v hvr) (by omega)
      subst hb
      constructor
      · simp [searchsorted, List.findIdx_cons, hvb]
      · simp [searchsorted, List.findIdx_cons, hvb]
    · have hvr : v ∈ rest := by
        rcases List.mem_cons.mp hv with rfl | hvr
        · omega
        · exact hvr
      obtain ⟨h1, h2⟩ := ih hsort.of_cons hvr
      have hss : searchsorted (b :: rest) v = searchsorted rest v + 1 := by
        simp [searchsorted, List.findIdx_cons, hvb]
      rw [hss]
      exact ⟨by simpa using Nat.succ_lt_succ h1, by simpa using h2⟩

theorem searchsorted_strict_mono (bnds : List ℕ)
    (hsort : bnds.Sorted (· < ·)) (v w : ℕ) (hv : v ∈ bnds) (hw : w ∈ bnds)
    (hvw : v < w) : searchsorted bnds v < searchsorted bnds w := by
  obtain ⟨hv', hgetv⟩ := searchsorted_mem bnds hsort v hv
  obtain ⟨hw', hgetw⟩ := searchsorted_mem bnds hsort w hw
  rcases Nat.lt_trichotomy (searchsorted bnds v) (searchsorted bnds w) with
    h | h | h
  · exact h
  · exfalso
    rw [h, hgetw] at hgetv
    omega
  · exfalso
    have := (List.pairwise_iff_getElem.mp hsort)
      (searchsorted bnds w) (searchsorted bnds v) hw' hv' h
    rw [List.getD_eq_getElem _ _ hv'] at hgetv
    rw [List.getD_eq_getElem _ _ hw'] at hgetw
    rw [hgetv, hgetw] at this
    omega

/-- C4: over sorted segment boundaries, the constructed splice-graph edge
list consists exactly of the adjacency edges `(i, i+1)` over the
`len(bnds)-1` segments plus one edge per junction; each junction edge runs
from the segment whose right boundary is the junction's start to the
segment whose left boundary is `stop+1`, and every edge points from a
lower-indexed to a higher-indexed segment. -/
theorem splice_graph_edges_characterization
    (segment_bnds : List ℕ) (jns : List (ℕ × ℕ))
    (hsort : segment_bnds.Sorted (· < ·))
    (hjns : ∀ jn ∈ jns, jn.1 ∈ segment_bnds ∧ jn.2 + 1 ∈ segment_bnds ∧
      jn.1 ≤ jn.2 ∧ (∃ x ∈ segment_bnds, x < jn.1) ∧
      (∃ y ∈ segment_bnds, jn.2 + 1 < y)) :
    (∀ p, p ∈ splice_graph_edges segment_bnds jns ↔
      ((∃ i : ℕ, i < segment_bnds.length - 2 ∧ p = ((i : ℤ), (i : ℤ) + 1)) ∨
        ∃ jn ∈ jns, p = junction_edge segment_bnds jn)) ∧
    (∀ jn ∈ jns, ∃ a b : ℕ,
      junction_edge segment_bnds jn = ((a : ℤ), (b : ℤ)) ∧ a < b ∧
      b < segment_bnds.length - 1 ∧ a + 1 < segment_bnds.length ∧
      segment_bnds.getD (a + 1) 0 = jn.1 ∧
      segment_bnds.getD b 0 = jn.2 + 1) ∧
    (∀ p ∈ splice_graph_edges segment_bnds jns, p.1 < p.2) := by
  have hjn_char : ∀ jn ∈ jns, ∃ a b : ℕ,
      junction_edge segment_bnds jn = ((a : ℤ), (b : ℤ)) ∧ a < b ∧
      b < segment_bnds.length - 1 ∧ a + 1 < segment_bnds.length ∧
      segment_bnds.getD (a + 1) 0 = jn.1 ∧
      segment_bnds.getD b 0 = jn.2 + 1 := by
    intro jn hjn
    rcases hjns jn hjn with ⟨hs, he, hse, ⟨x, hx, hxlt⟩, ⟨y, hy, hylt⟩⟩
    obtain ⟨hia, hgeta⟩ := searchsorted_mem segment_bnds hsort jn.1 hs
    obtain ⟨hib, hgetb⟩ := searchsorted_mem segment_bnds hsort (jn.2 + 1) he
    have hxa : searchsorted segment_bnds x < searchsorted segment_bnds jn.1 :=
      searchsorted_strict_mono segment_bnds hsort x jn.1 hx hs hxlt
    have hab : searchsorted segment_bnds jn.1 <
        searchsorted segment_bnds (jn.2 + 1) :=
      searchsorted_strict_mono segment_bnds hsort jn.1 (jn.2 + 1) hs he
        (by omega)
    have hby : searchsorted segment_bnds (jn.2 + 1) <
        searchsorted segment_bnds y :=
      searchsorted_strict_mono segment_bnds hsort (jn.2 + 1) y he hy hylt
    obtain ⟨hiy, _⟩ := searchsorted_mem segment_bnds hsort y hy
    have ha1 : searchsorted segment_bnds jn.1 - 1 + 1 =
        searchsorted segment_bnds jn.1 := by omega
    refine ⟨searchsorted segment_bnds jn.1 - 1,
      searchsorted segment_bnds (jn.2 + 1), ?_, by omega, by omega,
      by omega, ?_, hgetb⟩
    · rw [junction_edge]
      have h1 : ((searchsorted segment_bnds jn.1 - 1 : ℕ) : ℤ) =
          (searchsorted segment_bnds jn.1 : ℤ) - 1 := by omega
      have h2 : ((searchsorted segment_bnds (jn.2 + 1) : ℕ) : ℤ) =
          (searchsorted segment_bnds (jn.2 + 1) : ℤ) - 1 + 1 := by omega
      rw [h1, ← h2]
    · rw [ha1]
      exact hgeta
  refine ⟨?_, hjn_char, ?_⟩
  · intro p
    rw [splice_graph_edges, List.mem_append]
    constructor
    · rintro (hadj | hjn)
      · rcases List.mem_map.mp hadj with ⟨i, hi, rfl⟩
        exact Or.inl ⟨i, by have := List.mem_range.mp hi; omega, rfl⟩
      · rcases List.mem_map.mp hjn with ⟨jn, hjn', rfl⟩
        exact Or.inr ⟨jn, hjn', rfl⟩
    · rintro (⟨i, hi, rfl⟩ | ⟨jn, hjn', rfl⟩)
      · exact Or.inl (List.mem_map.mpr
          ⟨i, List.mem_range.mpr (by omega), rfl⟩)
      · exact Or.inr (List.mem_map.mpr ⟨jn, hjn', rfl⟩)
  · intro p hp
    rcases List.mem_append.mp hp with hadj | hjn
    · rcases List.mem_map.mp hadj with ⟨i, _, rfl⟩
      show (i : ℤ) < (i : ℤ) + 1
      omega
    · rcases List.mem_map.mp hjn with ⟨jn, hjn', rfl⟩
      rcases hjn_char jn hjn' with ⟨a, b, heq, hab, _, _, _, _⟩
      rw [heq]
      show (a : ℤ) < (b : ℤ)
      exact_mod_cast hab

/-- Witness for C4: boundaries `[0, 10, 20, 30]` (three segments) with the
single junction `(10, 19)`; its edge joins segment 0 (right boundary 10) to
segment 2 (left boundary 20). -/
theorem splice_graph_edges_characterization_witness :
    (∀ p, p ∈ splice_graph_edges [0, 10, 20, 30] [(10, 19)] ↔
      ((∃ i : ℕ, i < [0, 10, 20, 30].length - 2 ∧
          p = ((i : ℤ), (i : ℤ) + 1)) ∨
        ∃ jn ∈ [((10 : ℕ), (19 : ℕ))],
          p = junction_edge [0, 10, 20, 30] jn)) ∧
    (∀ jn ∈ [((10 : ℕ), (19 : ℕ))], ∃ a b : ℕ,
      junction_edge [0, 10, 20, 30] jn = ((a : ℤ), (b : ℤ)) ∧ a < b ∧
      b < [0, 10, 20, 30].length - 1 ∧ a + 1 < [0, 10, 20, 30].length ∧
      [0, 10, 20, 30].getD (a + 1) 0 = jn.1 ∧
      [0, 10, 20, 30].getD b 0 = jn.2 + 1) ∧
    (∀ p ∈ splice_graph_edges [0, 10, 20, 30] [(10, 19)], p.1 < p.2) :=
  splice_graph_edges_characterization [0, 10, 20, 30] [(10, 19)]
    (by decide) (by decide)

/-! ### `merge_adjacent_intervals` (`grit/find_elements.py:163-175`) -/

/-- Python's tuple comparison on `(start, stop)` pairs: lexicographic. -/
def intervalLE (a b : ℤ × ℤ) : Prop :=
  a.1 < b.1 ∨ (a.1 = b.1 ∧ a.2 ≤ b.2)

instance : DecidableRel intervalLE := fun a b =>
  inferInstanceAs (Decidable (a.1 < b.1 ∨ (a.1 = b.1 ∧ a.2 ≤ b.2)))

instance : IsTotal (ℤ × ℤ) intervalLE := by
  constructor
  intro a b
  unfold intervalLE
  omega

instance : IsTrans (ℤ × ℤ) intervalLE := by
  constructor
  intro a b c hab hbc
  unfold intervalLE at hab hbc ⊢
  omega

/-- `intervals.sort()`: Python's stable sort under tuple comparison; the
lexicographic order is total and antisymmetric, so any sorted permutation
is the same list. -/
def pySortIntervals (l : List (ℤ × ℤ)) : List (ℤ × ℤ) :=
  List.insertionSort intervalLE l

/-- The `for start, stop in intervals[1:]` loop of
`merge_adjacent_intervals`: `cur` is `merged_intervals[-1]` (earlier merged
intervals are already emitted), `prev_stop` the previous interval's stop.
A near interval overwrites the current stop (`merged_intervals[-1][1] =
stop`); a far one appends. -/
def mergeGo (d : ℤ) : (ℤ × ℤ) → ℤ → List (ℤ × ℤ) → List (ℤ × ℤ)
  | cur, _, [] => [cur]
  | cur, prev_stop, (start, stop) :: rest =>
    if start - d - 1 ≤ prev_stop then mergeGo d (cur.1, stop) stop rest
    else cur :: mergeGo d (start, stop) stop rest

/-- `merge_adjacent_intervals(intervals, max_merge_distance)` from
`grit/find_elements.py:163-175`. -/
def merge_adjacent_intervals (intervals : List (ℤ × ℤ))
    (max_merge_distance : ℤ) : List (ℤ × ℤ) :=
  if intervals = [] then []
  else
    match pySortIntervals intervals with
    | [] => []
    | first :: rest => mergeGo max_merge_distance first first.2 rest

theorem mergeGo_spec (d : ℤ) (hd : 0 ≤ d) :
    ∀ (l : List (ℤ × ℤ)) (cur : ℤ × ℤ),
      cur.1 ≤ cur.2 → (∀ p ∈ l, p.1 ≤ p.2) →
      List.Chain' (fun a b : ℤ × ℤ => a.1 ≤ b.1) (cur :: l) →
      List.Chain' (fun a b : ℤ × ℤ => a.2 ≤ b.2) (cur :: l) →
      (∀ m ∈ mergeGo d cur cur.2 l, cur.1 ≤ m.1 ∧ m.1 ≤ m.2) ∧
      (mergeGo d cur cur.2 l).Pairwise (fun a b => a.2 < b.1) ∧
      (∃ m ∈ mergeGo d cur cur.2 l, m.1 ≤ cur.1 ∧ cur.2 ≤ m.2) ∧
      (∀ p ∈ l, ∃ m ∈ mergeGo d cur cur.2 l, m.1 ≤ p.1 ∧ p.2 ≤ m.2) := by
  intro l
  induction l with
  | nil =>
    intro cur hcur _ _ _
    refine ⟨?_, ?_, ⟨cur, ?_⟩, ?_⟩
    · intro m hm
      rw [mergeGo] at hm
      rcases List.mem_singleton.mp hm with rfl
      exact ⟨le_refl _, hcur⟩
    · rw [mergeGo]
      exact List.pairwise_singleton _ _
    · rw [mergeGo]
      exact ⟨List.mem_singleton_self _, le_refl _, le_refl _⟩
    · intro p hp
      cases hp
  | cons hd' tl ih =>
    rcases hd' with ⟨s, e⟩
    intro cur hcur hse hchain1 hchain2
    have hcs : cur.1 ≤ s := (List.chain'_cons.mp hchain1).1
    have hce : cur.2 ≤ e := (List.chain'_cons.mp hchain2).1
    have hsse : s ≤ e := hse (s, e) (List.mem_cons_self _ _)
    have hse' : ∀ p ∈ tl, p.1 ≤ p.2 :=
      fun p hp => hse p (List.mem_cons_of_mem _ hp)
    by_cases hnear : s - d - 1 ≤ cur.2
    · rw [mergeGo, if_pos hnear]
      have hchain1' :
          List.Chain' (fun a b : ℤ × ℤ => a.1 ≤ b.1) ((cur.1, e) :: tl) := by
        rcases tl with _ | ⟨t0, tl'⟩
        · exact List.chain'_singleton _
        · refine List.chain'_cons.mpr ⟨?_, (List.chain'_cons.mp
            (List.chain'_cons.mp hchain1).2).2⟩
          have := (List.chain'_cons.mp (List.chain'_cons.mp hchain1).2).1
          show cur.1 ≤ t0.1
          omega
      have hchain2' :
          List.Chain' (fun a b : ℤ × ℤ => a.2 ≤ b.2) ((cur.1, e) :: tl) := by
        rcases tl with _ | ⟨t0, tl'⟩
        · exact List.chain'_singleton _
        · refine List.chain'_cons.mpr ⟨?_, (List.chain'_cons.mp
            (List.chain'_cons.mp hchain2).2).2⟩
          have := (List.chain'_cons.mp (List.chain'_cons.mp hchain2).2).1
          show e ≤ t0.2
          omega
      have hcur' : ((cur.1, e) : ℤ × ℤ).1 ≤ ((cur.1, e) : ℤ × ℤ).2 := by
        show cur.1 ≤ e
        omega
      obtain ⟨h1, h2, ⟨m, hm, hm1, hm2⟩, h4⟩ :=
        ih (cur.1, e) hcur' hse' hchain1' hchain2'
      refine ⟨h1, h2, ⟨m, hm, hm1, by omega⟩, ?_⟩
      intro p hp
      rcases List.mem_cons.mp hp with rfl | hp'
      · exact ⟨m, hm, by omega, by omega⟩
      · exact h4 p hp'
    · rw [mergeGo, if_neg hnear]
      have hchain1' :
          List.Chain' (fun a b : ℤ × ℤ => a.1 ≤ b.1) ((s, e) :: tl) :=
        (List.chain'_cons.mp hchain1).2
      have hchain2' :
          List.Chain' (fun a b : ℤ × ℤ => a.2 ≤ b.2) ((s, e) :: tl) :=
        (List.chain'_cons.mp hchain2).2
      obtain ⟨h1, h2, ⟨m, hm, hm1, hm2⟩, h4⟩ :=
        ih (s, e) hsse hse' hchain1' hchain2'
      have hstarts : ∀ m' ∈ mergeGo d (s, e) e tl, cur.2 < m'.1 := by
        intro m' hm'
        have := (h1 m' hm').1
        show cur.2 < m'.1
        omega
      refine ⟨?_, List.pairwise_cons.mpr ⟨hstarts, h2⟩, ⟨cur,
        List.mem_cons_self _ _, le_refl _, le_refl _⟩, ?_⟩
      · intro m' hm'
        rcases List.mem_cons.mp hm' with rfl | hm''
        · exact ⟨le_refl _, hcur⟩
        · obtain ⟨ha, hb⟩ := h1 m' hm''
          exact ⟨by omega, hb⟩
      · intro p hp
        rcases List.mem_cons.mp hp with rfl | hp'
        · exact ⟨m, List.mem_cons_of_mem _ hm, hm1, hm2⟩
        · obtain ⟨m', hm', ha, hb⟩ := h4 p hp'
          exact ⟨m', List.mem_cons_of_mem _ hm', ha, hb⟩

/-- C10 counterexample: with the nested input `[(0,10), (2,3)]` and merge
distance 0 the function returns `[(0, 3)]`: the input interval `(0, 10)` is
not contained in any returned interval, so the returned set does not cover
the union of the inputs. -/
theorem merge_adjacent_intervals_claim_counterexample :
    merge_adjacent_intervals [(0, 10), (2, 3)] 0 = [(0, 3)] ∧
    ¬ ∃ m ∈ merge_adjacent_intervals [(0, 10), (2, 3)] 0,
        m.1 ≤ (0 : ℤ) ∧ (10 : ℤ) ≤ m.2 := by
  constructor
  · decide
  · decide

/-- C10 (amended): for every list of genomic intervals (`start ≤ stop`)
whose stop coordinates are non-decreasing in sorted order (no interval
properly nested inside an earlier-starting one) and every non-negative
merge distance, `merge_adjacent_intervals` returns sorted, pairwise
non-overlapping intervals, and every input interval is contained in some
returned interval. -/
theorem merge_adjacent_intervals_amended (intervals : List (ℤ × ℤ)) (d : ℤ)
    (hd : 0 ≤ d)
    (hse : ∀ p ∈ intervals, p.1 ≤ p.2)
    (hstops : List.Chain' (fun a b : ℤ × ℤ => a.2 ≤ b.2)
      (pySortIntervals intervals)) :
    (merge_adjacent_intervals intervals d).Pairwise
      (fun a b => a.2 < b.1) ∧
    (∀ m ∈ merge_adjacent_intervals intervals d, m.1 ≤ m.2) ∧
    ∀ p ∈ intervals, ∃ m ∈ merge_adjacent_intervals intervals d,
      m.1 ≤ p.1 ∧ p.2 ≤ m.2 := by
  by_cases hnil : intervals = []
  · subst hnil
    refine ⟨?_, ?_, ?_⟩
    · rw [merge_adjacent_intervals]
      simp
    · intro m hm
      rw [merge_adjacent_intervals] at hm
      simp at hm
    · intro p hp
      cases hp
  · have hperm : List.Perm (pySortIntervals intervals) intervals :=
      List.perm_insertionSort intervalLE intervals
    have hsorted : (pySortIntervals intervals).Sorted intervalLE :=
      List.sorted_insertionSort intervalLE intervals
    have hmem : ∀ p, p ∈ pySortIntervals intervals ↔ p ∈ intervals :=
      fun p => hperm.mem_iff
    have hse'' : ∀ p ∈ pySortIntervals intervals, p.1 ≤ p.2 :=
      fun p hp => hse p ((hmem p).mp hp)
    have hchain1 : List.Chain' (fun a b : ℤ × ℤ => a.1 ≤ b.1)
        (pySortIntervals intervals) := by
      refine List.Chain'.imp ?_ hsorted.chain'
      intro a b hab
      rcases hab with h | ⟨h, _⟩
      · omega
      · omega
    cases hsort_eq : pySortIntervals intervals with
    | nil =>
      rw [hsort_eq] at hperm
      exact absurd hperm.nil_eq.symm hnil
    | cons first rest =>
      have hout : merge_adjacent_intervals intervals d =
          mergeGo d first first.2 rest := by
        rw [merge_adjacent_intervals, if_neg hnil, hsort_eq]
      rw [hsort_eq] at hchain1 hstops hse''
      obtain ⟨h1, h2, h3, h4⟩ := mergeGo_spec d hd rest first
        (hse'' first (List.mem_cons_self _ _))
        (fun p hp => hse'' p (List.mem_cons_of_mem _ hp)) hchain1 hstops
      rw [hout]
      refine ⟨h2, fun m hm => (h1 m hm).2, ?_⟩
      intro p hp
      have hp' : p ∈ first :: rest := by
        rw [← hsort_eq, hmem p]
        exact hp
      rcases List.mem_cons.mp hp' with rfl | hp''
      · obtain ⟨m, hm, hm1, hm2⟩ := h3
        exact ⟨m, hm, hm1, hm2⟩
      · exact h4 p hp''

/-- Witness for C10 (amended): intervals `[(0,2), (1,5), (10,12)]` with
merge distance 1 merge into `[(0,5), (10,12)]`, covering every input. -/
theorem merge_adjacent_intervals_amended_witness :
    (merge_adjacent_intervals [(0, 2), (1, 5), (10, 12)] 1).Pairwise
      (fun a b => a.2 < b.1) ∧
    (∀ m ∈ merge_adjacent_intervals [(0, 2), (1, 5), (10, 12)] 1,
      m.1 ≤ m.2) ∧
    ∀ p ∈ [((0 : ℤ), (2 : ℤ)), (1, 5), (10, 12)],
      ∃ m ∈ merge_adjacent_intervals [(0, 2), (1, 5), (10, 12)] 1,
        m.1 ≤ p.1 ∧ p.2 ≤ m.2 :=
  merge_adjacent_intervals_amended [(0, 2), (1, 5), (10, 12)] 1
    (by decide) (by decide)
    (by
      have hs : pySortIntervals [(0, 2), (1, 5), (10, 12)] =
          [(0, 2), (1, 5), (10, 12)] := by decide
      rw [hs]
      norm_num [List.chain'_cons])

/-! ### `write_gene_to_fpkm_tracking` (`grit/build_transcripts.py:101-126`)
against the header declared in `parse_arguments`
(`grit/build_transcripts.py:744-749`) -/

/-- A gene as consumed by the per-gene writers. -/
structure TrackedGene where
  id : String
  chrm : String
  transcripts : List Transcript

/-- Modelled from the spec: `Transcript.calc_length` (external `files.gtf`
module, not under the repository sources) returns the transcript length,
the summed length in bases of its exons. -/
def Transcript.calc_length (t : Transcript) : ℤ :=
  (t.exons.map (fun e => e.2 - e.1 + 1)).sum

/-- The column header written by `parse_arguments`
(`grit/build_transcripts.py:745-749`). -/
def fpkm_tracking_columns : List String :=
  ["tracking_id", "class_code", "nearest_ref_id", "gene_id",
   "gene_short_name", "tss_id", "locus", "length", "coverageFPKM",
   "FPKM_conf_lo", "FPKM_conf_hi", "FPKM_status"]

/-- The transcript loop of `write_gene_to_fpkm_tracking`
(`grit/build_transcripts.py:105-123`): skips unobservable transcripts while
advancing `n_skipped_ts`, and otherwise fills a 12-column `'-'` row at
positions 0, 5, 6, 7, 11 and, when the corresponding arrays are supplied,
8, 9, 10 with the `%.2e`-formatted re-indexed values (`fmt` abstracts the
float formatter). -/
def fpkmTrackingGo (fmt : ℚ → String) (gene : TrackedGene)
    (lbs ubs fpkms : Option (List ℚ)) (unobservable : List ℕ) :
    List (ℕ × Transcript) → ℕ → List (List String)
  | [], _ => []
  | (index, transcript) :: rest, n_skipped_ts =>
    if index ∈ unobservable then
      fpkmTrackingGo fmt gene lbs ubs fpkms unobservable rest
        (n_skipped_ts + 1)
    else
      let line0 := List.replicate 12 "-"
      let line1 := line0.set 0 gene.id
      let line2 := line1.set 5 transcript.id
      let line3 := line2.set 6 (gene.chrm ++ ":" ++
        toString transcript.start ++ "-" ++ toString transcript.stop)
      let line4 := line3.set 7 (toString (Transcript.calc_length transcript))
      let line5 := line4.set 11 "OK"
      let line6 := match fpkms with
        | some v => line5.set 8 (fmt (v.getD (index - n_skipped_ts) 0))
        | none => line5
      let line7 := match lbs with
        | some v => line6.set 9 (fmt (v.getD (index - n_skipped_ts) 0))
        | none => line6
      let line8 := match ubs with
        | some v => line7.set 10 (fmt (v.getD (index - n_skipped_ts) 0))
        | none => line7
      line8 :: fpkmTrackingGo fmt gene lbs ubs fpkms unobservable rest
        n_skipped_ts

/-- `write_gene_to_fpkm_tracking` as the list of tab-joined rows it flushes. -/
def write_gene_to_fpkm_tracking (fmt : ℚ → String) (gene : TrackedGene)
    (lbs ubs fpkms : Option (List ℚ)) (unobservable : List ℕ) :
    List (List String) :=
  fpkmTrackingGo fmt gene lbs ubs fpkms unobservable
    gene.transcripts.enum 0

/-- The row layout the amended claim describes, for the retained transcript
at observable position `m`: the gene id sits in the `tracking_id` column,
the transcript id in the `tss_id` column, the `gene_id` column stays `'-'`,
and locus, length, FPKM point/lower/upper and the `OK` flag fill columns
6-11. -/
def fpkm_tracking_row_spec (fmt : ℚ → String) (gene : TrackedGene)
    (lbs ubs fpkms : Option (List ℚ)) (m : ℕ) (t : Transcript) :
    List String :=
  [gene.id, "-", "-", "-", "-", t.id,
   gene.chrm ++ ":" ++ toString t.start ++ "-" ++ toString t.stop,
   toString (Transcript.calc_length t),
   (match fpkms with | some v => fmt (v.getD m 0) | none => "-"),
   (match lbs with | some v => fmt (v.getD m 0) | none => "-"),
   (match ubs with | some v => fmt (v.getD m 0) | none => "-"),
   "OK"]

/-- Rows per the amended claim: one per observable transcript, in order,
with the abundance arrays indexed by the observable position. -/
def fpkm_tracking_rows_spec (fmt : ℚ → String) (gene : TrackedGene)
    (lbs ubs fpkms : Option (List ℚ)) (unobservable : List ℕ) :
    List (List String) :=
  ((gene.transcripts.enum.filter
      (fun p => decide (p.1 ∉ unobservable))).enum).map
    (fun q => fpkm_tracking_row_spec fmt gene lbs ubs fpkms q.1 q.2.2)

theorem fpkmTrackingGo_spec (fmt : ℚ → String) (gene : TrackedGene)
    (lbs ubs fpkms : Option (List ℚ)) (unobservable : List ℕ)
    (hnodup : unobservable.Nodup) :
    ∀ (ts : List Transcript) (s r nsk : ℕ),
      nsk = (unobservable.filter (fun x => decide (x < s))).length →
      r + nsk = s →
      fpkmTrackingGo fmt gene lbs ubs fpkms unobservable
          (List.enumFrom s ts) nsk =
        (((List.enumFrom s ts).filter
            (fun p => decide (p.1 ∉ unobservable))).enumFrom r).map
          (fun q => fpkm_tracking_row_spec fmt gene lbs ubs fpkms q.1 q.2.2) := by
  intro ts
  induction ts with
  | nil => intro s r nsk _ _; rfl
  | cons t rest ih =>
    intro s r nsk hnsk hr
    have henum : List.enumFrom s (t :: rest) =
        (s, t) :: List.enumFrom (s + 1) rest := rfl
    rw [henum]
    by_cases hs : s ∈ unobservable
    · have hnsk' : nsk + 1 =
          (unobservable.filter (fun x => decide (x < s + 1))).length := by
        rw [filter_lt_succ_length, List.count_eq_one_of_mem hnodup hs, ← hnsk]
      have hskip : (decide (s ∉ unobservable)) = false := by
        simp [hs]
      rw [fpkmTrackingGo, if_pos hs, List.filter_cons, hskip]
      simp only [Bool.false_eq_true, if_false]
      exact ih (s + 1) r (nsk + 1) hnsk' (by omega)
    · have hnsk' : nsk =
          (unobservable.filter (fun x => decide (x < s + 1))).length := by
        rw [filter_lt_succ_length, List.count_eq_zero_of_not_mem hs, ← hnsk]
        omega
      have hkeep : (decide (s ∉ unobservable)) = true := by
        simp [hs]
      rw [fpkmTrackingGo, if_neg hs, List.filter_cons, hkeep]
      simp only [if_true]
      have henum2 : (((s, t) :: ((List.enumFrom (s + 1) rest).filter
          (fun p => decide (p.1 ∉ unobservable)))).enumFrom r) =
          (r, (s, t)) :: (((List.enumFrom (s + 1) rest).filter
            (fun p => decide (p.1 ∉ unobservable))).enumFrom (r + 1)) := rfl
      rw [henum2, List.map_cons]
      have hrow : s - nsk = r := by omega
      congr 1
      · rw [hrow]
        cases fpkms <;> cases lbs <;> cases ubs <;> rfl
      · exact ih (s + 1) (r + 1) nsk hnsk' (by omega)

/-- C8 counterexample: for a concrete gene the flushed record does not align
with the declared header: the `gene_id` column (index 3) holds `'-'`, not
the gene id (which the code writes into the `tracking_id` column), so the
claimed header alignment fails. -/
theorem write_gene_to_fpkm_tracking_claim_counterexample :
    fpkm_tracking_columns.getD 3 "" = "gene_id" ∧
    ((write_gene_to_fpkm_tracking (fun _ => "1.00e+00")
        ⟨"gene_1", "chr1", [⟨"t1", 0, 9, [(0, 9)]⟩]⟩
        (some [1]) (some [1]) (some [1]) []).getD 0 []).getD 3 "" = "-" ∧
    ((write_gene_to_fpkm_tracking (fun _ => "1.00e+00")
        ⟨"gene_1", "chr1", [⟨"t1", 0, 9, [(0, 9)]⟩]⟩
        (some [1]) (some [1]) (some [1]) []).getD 0 []).getD 3 "" ≠
      "gene_1" := by
  exact ⟨rfl, rfl, by decide⟩

/-- C8 (amended): for every gene flushed to the abundance-tracking output,
exactly one record is written per observable transcript (unobservable ones
are skipped with the abundance arrays re-indexed past them), and each
record carries the gene id in the `tracking_id` column, `'-'` in the
`gene_id` column, the transcript id in the `tss_id` column, the locus
string `contig:start-stop`, the transcript length, the FPKM point/lower/
upper values and the status flag `"OK"` in columns 6-11 as declared. -/
theorem write_gene_to_fpkm_tracking_amended (fmt : ℚ → String)
    (gene : TrackedGene) (lbs ubs fpkms : Option (List ℚ))
    (unobservable : List ℕ) (hnodup : unobservable.Nodup) :
    write_gene_to_fpkm_tracking fmt gene lbs ubs fpkms unobservable =
      fpkm_tracking_rows_spec fmt gene lbs ubs fpkms unobservable ∧
    (write_gene_to_fpkm_tracking fmt gene lbs ubs fpkms unobservable).length
      = ((gene.transcripts.enum.filter
          (fun p => decide (p.1 ∉ unobservable)))).length := by
  have h := fpkmTrackingGo_spec fmt gene lbs ubs fpkms unobservable hnodup
    gene.transcripts 0 0 0 (by simp) (by omega)
  constructor
  · exact h
  · rw [show write_gene_to_fpkm_tracking fmt gene lbs ubs fpkms unobservable
        = fpkmTrackingGo fmt gene lbs ubs fpkms unobservable
          gene.transcripts.enum 0 from rfl]
    rw [show gene.transcripts.enum = List.enumFrom 0 gene.transcripts from rfl,
      h]
    simp [fpkm_tracking_rows_spec]

/-- Witness for C8 (amended) at a concrete gene with two transcripts, the
first unobservable. -/
theorem write_gene_to_fpkm_tracking_amended_witness :
    write_gene_to_fpkm_tracking (fun _ => "9.99e-01")
        ⟨"g", "2L", [⟨"t0", 0, 9, [(0, 9)]⟩, ⟨"t1", 0, 19, [(0, 19)]⟩]⟩
        (some [1/2]) (some [3/4]) (some [2/3]) [0] =
      fpkm_tracking_rows_spec (fun _ => "9.99e-01")
        ⟨"g", "2L", [⟨"t0", 0, 9, [(0, 9)]⟩, ⟨"t1", 0, 19, [(0, 19)]⟩]⟩
        (some [1/2]) (some [3/4]) (some [2/3]) [0] ∧
    (write_gene_to_fpkm_tracking (fun _ => "9.99e-01")
        ⟨"g", "2L", [⟨"t0", 0, 9, [(0, 9)]⟩, ⟨"t1", 0, 19, [(0, 19)]⟩]⟩
        (some [1/2]) (some [3/4]) (some [2/3]) [0]).length =
      (((⟨"g", "2L", [⟨"t0", 0, 9, [(0, 9)]⟩, ⟨"t1", 0, 19, [(0, 19)]⟩]⟩ :
          TrackedGene)).transcripts.enum.filter
        (fun p => decide (p.1 ∉ [0]))).length :=
  write_gene_to_fpkm_tracking_amended (fun _ => "9.99e-01")
    ⟨"g", "2L", [⟨"t0", 0, 9, [(0, 9)]⟩, ⟨"t1", 0, 19, [(0, 19)]⟩]⟩
    (some [1/2]) (some [3/4]) (some [2/3]) [0] (by decide)

/-! ### Gene bound construction (`grit/build_transcripts.py:191-195`,
`file_types/fast_gtf_parser/gtf.py:128-131`) -/

/-- Python `min` over a list of integers (never called on empty input). -/
def pyMinInt (l : List ℤ) : ℤ :=
  match l with
  | [] => 0
  | h :: t => t.foldl min h

/-- Python `max` over a list of integers (never called on empty input). -/
def pyMaxInt (l : List ℤ) : ℤ :=
  match l with
  | [] => 0
  | h :: t => t.foldl max h

theorem foldl_intmin_le_init (t : List ℤ) (a : ℤ) : t.foldl min a ≤ a := by
  induction t generalizing a with
  | nil => simp
  | cons b t ih => exact le_trans (ih (min a b)) (min_le_left _ _)

theorem foldl_intmin_le_mem :
    ∀ (t : List ℤ) (a x : ℤ), x ∈ t → t.foldl min a ≤ x
  | b :: t, a, x, hx => by
    rcases List.mem_cons.mp hx with rfl | hxt
    · exact le_trans (foldl_intmin_le_init t (min a x)) (min_le_right _ _)
    · exact foldl_intmin_le_mem t (min a b) x hxt

theorem pyMinInt_le_of_mem {l : List ℤ} {x : ℤ} (hx : x ∈ l) :
    pyMinInt l ≤ x := by
  match l with
  | [] => cases hx
  | h :: t =>
    simp only [pyMinInt]
    rcases List.mem_cons.mp hx with rfl | hxt
    · exact foldl_intmin_le_init t x
    · exact foldl_intmin_le_mem t h x hxt

theorem foldl_intmax_init_le (t : List ℤ) (a : ℤ) : a ≤ t.foldl max a := by
  induction t generalizing a with
  | nil => simp
  | cons b t ih => exact le_trans (le_max_left _ _) (ih (max a b))

theorem foldl_intmax_mem_le :
    ∀ (t : List ℤ) (a x : ℤ), x ∈ t → x ≤ t.foldl max a
  | b :: t, a, x, hx => by
    rcases List.mem_cons.mp hx with rfl | hxt
    · exact le_trans (le_max_right _ _) (foldl_intmax_init_le t (max a x))
    · exact foldl_intmax_mem_le t (max a b) x hxt

theorem le_pyMaxInt_of_mem {l : List ℤ} {x : ℤ} (hx : x ∈ l) :
    x ≤ pyMaxInt l := by
  match l with
  | [] => cases hx
  | h :: t =>
    simp only [pyMaxInt]
    rcases List.mem_cons.mp hx with rfl | hxt
    · exact foldl_intmax_init_le t x
    · exact foldl_intmax_mem_le t h x hxt

/-- `gene_min = min(min(e) for e in chain(tss_exons, tes_exons,
se_transcripts))` from `grit/build_transcripts.py:191-192`; Python `min` of
a 2-tuple is the smaller coordinate. -/
def worker_gene_min (tss_exons tes_exons se_transcripts : List (ℤ × ℤ)) :
    ℤ :=
  pyMinInt (((tss_exons ++ tes_exons) ++ se_transcripts).map
    (fun e => min e.1 e.2))

/-- `gene_max = max(max(e) for e in chain(tss_exons, tes_exons,
se_transcripts))` from `grit/build_transcripts.py:193-194`. -/
def worker_gene_max (tss_exons tes_exons se_transcripts : List (ℤ × ℤ)) :
    ℤ :=
  pyMaxInt (((tss_exons ++ tes_exons) ++ se_transcripts).map
    (fun e => max e.1 e.2))

/-- Modelled from the spec: `build_transcripts` (external `transcript`
module, not under the repository sources) enumerates each transcript as an
ordered list of disjoint exon intervals tracing a graph path from a
start-labeled to a stop-labeled element, so its first and its last exon
each come from the TSS-exon, TES-exon or single-exon-transcript sets it was
handed. -/
def modelled_built_transcript (tss_exons tes_exons se_transcripts :
    List (ℤ × ℤ)) (exons : List (ℤ × ℤ)) : Prop :=
  exons ≠ [] ∧ (∀ e ∈ exons, e.1 ≤ e.2) ∧
  List.Chain' (fun a b : ℤ × ℤ => a.2 < b.1) exons ∧
  exons.headD (0, 0) ∈ (tss_exons ++ tes_exons) ++ se_transcripts ∧
  exons.getLastD (0, 0) ∈ (tss_exons ++ tes_exons) ++ se_transcripts

/-- Modelled from the spec: the bundled C parser (`libgtf.so`, not under the
repository sources) supplies `g.max_loc` for `load_gtf`; per the spec's
Gene bound invariant it covers every owned exon's stop coordinate. -/
def modelled_c_parser_max_loc (transcripts : List (List (ℤ × ℤ)))
    (max_loc : ℤ) : Prop :=
  ∀ t ∈ transcripts, ∀ e ∈ t, e.2 ≤ max_loc

/-- Modelled from the spec: `Transcript.exon_bnds` (external `files.gtf`
module) lists each exon's start and stop coordinate. -/
def exon_bnds (exons : List (ℤ × ℤ)) : List ℤ :=
  exons.flatMap (fun e => [e.1, e.2])

/-- `min_loc = min(min(t.exon_bnds) for t in transcripts)` from
`file_types/fast_gtf_parser/gtf.py:128`. -/
def load_gtf_gene_min (transcripts : List (List (ℤ × ℤ))) : ℤ :=
  pyMinInt (transcripts.map (fun t => pyMinInt (exon_bnds t)))

theorem chain_headD_le (exons : List (ℤ × ℤ))
    (hse : ∀ e ∈ exons, e.1 ≤ e.2)
    (hch : List.Chain' (fun a b : ℤ × ℤ => a.2 < b.1) exons) :
    ∀ e ∈ exons, (exons.headD (0, 0)).1 ≤ e.1 := by
  induction exons with
  | nil => intro e he; cases he
  | cons a tl ih =>
    intro e he
    rcases List.mem_cons.mp he with rfl | he'
    · exact le_refl _
    · rcases tl with _ | ⟨b, tl'⟩
      · cases he'
      · have hab : a.2 < b.1 := (List.chain'_cons.mp hch).1
        have haa : a.1 ≤ a.2 := hse a (List.mem_cons_self _ _)
        have := ih (fun p hp => hse p (List.mem_cons_of_mem _ hp))
          (List.chain'_cons.mp hch).2 e he'
        show a.1 ≤ e.1
        have hb : ((b :: tl').headD (0, 0)).1 = b.1 := rfl
        rw [hb] at this
        omega

theorem chain_le_getLastD :
    ∀ (exons : List (ℤ × ℤ)),
      (∀ e ∈ exons, e.1 ≤ e.2) →
      List.Chain' (fun a b : ℤ × ℤ => a.2 < b.1) exons →
      ∀ e ∈ exons, e.2 ≤ (exons.getLastD (0, 0)).2
  | [], _, _, e, he => by cases he
  | [a], _, _, e, he => by
    rcases List.mem_singleton.mp he with rfl
    exact le_refl _
  | a :: b :: tl, hse, hch, e, he => by
    have hab : a.2 < b.1 := (List.chain'_cons.mp hch).1
    have hbb : b.1 ≤ b.2 := hse b (List.mem_cons_of_mem _
      (List.mem_cons_self _ _))
    have hrec := chain_le_getLastD (b :: tl)
      (fun p hp => hse p (List.mem_cons_of_mem _ hp))
      (List.chain'_cons.mp hch).2
    have hlast : ((a :: b :: tl).getLastD (0, 0)) =
        ((b :: tl).getLastD (0, 0)) := rfl
    rcases List.mem_cons.mp he with rfl | he'
    · have := hrec b (List.mem_cons_self _ _)
      rw [hlast]
      omega
    · rw [hlast]
      exact hrec e he'

/-- C9: the `(min, max)` bounds of a pipeline-constructed Gene cover the
union of its transcripts' exon bounds: for a gene assembled in
`estimate_gene_expression_worker` (under the spec-modelled
`build_transcripts` enumeration) the bounds computed over the TSS/TES/
single-exon element sets cover every exon of every built transcript, and for
a gene loaded by `load_gtf` the computed `min_loc` is at most every exon
start while the parser-supplied `max_loc` (spec-modelled) is at least every
exon stop. -/
theorem gene_bounds_cover_transcript_exons
    (tss_exons tes_exons se_transcripts : List (ℤ × ℤ))
    (exons : List (ℤ × ℤ))
    (hmodel : modelled_built_transcript tss_exons tes_exons se_transcripts
      exons)
    (transcripts : List (List (ℤ × ℤ))) (max_loc : ℤ)
    (hmax : modelled_c_parser_max_loc transcripts max_loc) :
    (∀ e ∈ exons,
      worker_gene_min tss_exons tes_exons se_transcripts ≤ e.1 ∧
      e.2 ≤ worker_gene_max tss_exons tes_exons se_transcripts) ∧
    (∀ t ∈ transcripts, ∀ e ∈ t,
      load_gtf_gene_min transcripts ≤ e.1 ∧ e.2 ≤ max_loc) := by
  obtain ⟨hne, hse, hch, hhead, hlast⟩ := hmodel
  constructor
  · intro e he
    constructor
    · have h1 : worker_gene_min tss_exons tes_exons se_transcripts ≤
          min (exons.headD (0, 0)).1 (exons.headD (0, 0)).2 :=
        pyMinInt_le_of_mem (List.mem_map_of_mem _ hhead)
      have h2 := chain_headD_le exons hse hch e he
      have h3 : min (exons.headD (0, 0)).1 (exons.headD (0, 0)).2 ≤
          (exons.headD (0, 0)).1 := min_le_left _ _
      omega
    · have h1 : max (exons.getLastD (0, 0)).1 (exons.getLastD (0, 0)).2 ≤
          worker_gene_max tss_exons tes_exons se_transcripts :=
        le_pyMaxInt_of_mem (List.mem_map_of_mem _ hlast)
      have h2 := chain_le_getLastD exons hse hch e he
      have h3 : (exons.getLastD (0, 0)).2 ≤
          max (exons.getLastD (0, 0)).1 (exons.getLastD (0, 0)).2 :=
        le_max_right _ _
      omega
  · intro t ht e he
    refine ⟨?_, hmax t ht e he⟩
    have h1 : load_gtf_gene_min transcripts ≤ pyMinInt (exon_bnds t) :=
      pyMinInt_le_of_mem (List.mem_map_of_mem _ ht)
    have h2 : pyMinInt (exon_bnds t) ≤ e.1 := by
      apply pyMinInt_le_of_mem
      rw [exon_bnds]
      exact List.mem_flatMap.mpr ⟨e, he, List.mem_cons_self _ _⟩
    omega

/-- Witness for C9: a two-exon transcript built from a TSS exon `(0,5)` and
a TES exon `(10,20)`, and a loaded gene with one transcript `[(1,4)]` and
parser bound `max_loc = 4`. -/
theorem gene_bounds_cover_transcript_exons_witness :
    (∀ e ∈ [((0 : ℤ), (5 : ℤ)), (10, 20)],
      worker_gene_min [(0, 5)] [(10, 20)] [] ≤ e.1 ∧
      e.2 ≤ worker_gene_max [(0, 5)] [(10, 20)] []) ∧
    (∀ t ∈ [[((1 : ℤ), (4 : ℤ))]], ∀ e ∈ t,
      load_gtf_gene_min [[(1, 4)]] ≤ e.1 ∧ e.2 ≤ (4 : ℤ)) :=
  gene_bounds_cover_transcript_exons [(0, 5)] [(10, 20)] []
    [(0, 5), (10, 20)]
    (by
      refine ⟨by simp, by decide, ?_, by decide, by decide⟩
      refine List.chain'_cons.mpr ⟨by norm_num, List.chain'_singleton _⟩)
    [[(1, 4)]] 4 (by unfold modelled_c_parser_max_loc; decide)

end Grit
